import Mathlib

/-!
Verification of the database-manager core of the widget-sidebar repository
(`src/database/db_manager.py`), shallowly embedded in Lean 4.

The store keeps SQLite rows for items (with optional ordered-list membership),
clipboard-history entries and settings.  Rows are modelled as Lean structures,
the table contents as lists of rows, and each Python method as a pure state
transformation on a `DB` value.  SQL `WHERE` clauses become list filters with
SQL three-valued `NULL` comparison semantics made explicit (`sqlEqOpt`,
`sqlNeOpt`).  Methods that commit per statement (`execute_update`) are
modelled so that a failure-injection variant can expose what remains
persisted after a rollback.
-/

set_option maxHeartbeats 1000000

namespace WidgetSidebar

/-- Modelled from the spec: the Encryption Gateway (`EncryptionManager` with
`encrypt`, `decrypt`, `is_encrypted`) is imported by `db_manager.py` from
`core.encryption_manager`, which is not part of the provided sources.  Per
spec section 4.1: `encrypt` wraps a value into ciphertext (re-encrypting
ciphertext corrupts it, so `decrypt (encrypt (encrypt x))` differs from `x`);
`decrypt` inverts one layer of encryption and fails with a `DecryptionError`
on malformed or foreign-keyed ciphertext; `is_encrypted` recognises
ciphertext.  A `Content` value is either plaintext, a ciphertext wrapping of
stored content, or malformed ciphertext (which looks encrypted but cannot be
decrypted, e.g. encrypted under a foreign key). -/
inductive Content where
  | plain (s : String)
  | cipher (inner : Content)
  | malformed
deriving Repr, DecidableEq

/-- Modelled from the spec: ciphertext recogniser of the Encryption Gateway.
Malformed foreign ciphertext still looks encrypted. -/
def is_encrypted : Content → Bool
  | .plain _ => false
  | _ => true

/-- Modelled from the spec: encryption always wraps, even ciphertext
(the danger the `is_encrypted` guard exists to prevent). -/
def encrypt : Content → Content := Content.cipher

/-- Modelled from the spec: decryption unwraps one ciphertext layer and
fails (`none`, standing for `DecryptionError`) on anything else. -/
def decrypt : Content → Option Content
  | .cipher c => some c
  | _ => none

/-- Number of encryption layers around a content value. -/
def cipherDepth : Content → Nat
  | .cipher c => cipherDepth c + 1
  | _ => 0

/-- Python truthiness of a content value (`if ... and value:` guards):
the empty string is falsy, everything else stored in `content` is truthy. -/
def truthy : Content → Bool
  | .plain s => !(s == "")
  | _ => true

/-- Row of the `items` table (`CREATE TABLE items` in `_create_database`).
Timestamps are not modelled; `tags` is kept as the decoded list (the store
serialises it as JSON on write). -/
structure Item where
  id : Nat
  category_id : Nat
  label : String
  content : Content
  item_type : String
  icon : Option String
  is_sensitive : Bool
  is_favorite : Bool
  tags : List String
  description : Option String
  working_dir : Option String
  color : Option String
  is_active : Bool
  is_archived : Bool
  is_list : Bool
  list_group : Option String
  orden_lista : Int
deriving Repr, DecidableEq

/-- Row of the `clipboard_history` table.  `copied_at` is the insertion
time; the model advances a per-database clock on every insert, so stored
timestamps are strictly increasing (sub-second ties of `CURRENT_TIMESTAMP`
are not modelled). -/
structure HistEntry where
  id : Nat
  item_id : Option Nat
  content : String
  copied_at : Nat
deriving Repr, DecidableEq

/-- One element of the `items_data` argument of `create_list` /
`update_list`: a dict of optional per-item fields. -/
structure ItemSpec where
  label : Option String := none
  content : Option Content := none
  item_type : Option String := none
  icon : Option String := none
  is_sensitive : Option Bool := none
  tags : Option (List String) := none
  description : Option String := none
  working_dir : Option String := none
  color : Option String := none
deriving Repr, DecidableEq

/-- Keyword arguments of `update_item` (`**kwargs` restricted to the
`allowed_fields` list in the source); `none` means the field is absent. -/
structure ItemUpdate where
  label : Option String := none
  content : Option Content := none
  item_type : Option String := none
  icon : Option String := none
  is_sensitive : Option Bool := none
  is_favorite : Option Bool := none
  tags : Option (List String) := none
  description : Option String := none
  working_dir : Option String := none
  color : Option String := none
  is_active : Option Bool := none
  is_archived : Option Bool := none
  is_list : Option Bool := none
  list_group : Option String := none
  orden_lista : Option Int := none
deriving Repr, DecidableEq

/-- Database state: the `items` and `clipboard_history` tables plus their
AUTOINCREMENT counters, a clock for `CURRENT_TIMESTAMP`, and the
`max_history` setting (`get_setting` of key `max_history`, default 20,
modelled as a field since the settings table is otherwise irrelevant to the
claims). -/
structure DB where
  items : List Item
  nextId : Nat
  history : List HistEntry
  histNextId : Nat
  histTime : Nat
  max_history : Nat
deriving Repr, DecidableEq

/-- Fresh database as created by `_create_database` (no items, no history,
default `max_history` 20). -/
def emptyDB : DB :=
  { items := [], nextId := 1, history := [], histNextId := 1, histTime := 0,
    max_history := 20 }

/-- SQL `column = value` on a nullable TEXT column: comparisons involving
NULL are not true. -/
def sqlEqOpt : Option String → Option String → Bool
  | some a, some b => a == b
  | _, _ => false

/-- SQL `column != value` on a nullable TEXT column: comparisons involving
NULL are not true. -/
def sqlNeOpt : Option String → Option String → Bool
  | some a, some b => !(a == b)
  | _, _ => false

/-- WHERE clause `category_id = ? AND list_group = ? AND is_list = 1`
shared by `is_list_name_unique`, `delete_list` and the list-membership
notion of the ordering invariant. -/
def inGroup (cat : Nat) (g : String) (it : Item) : Bool :=
  it.category_id == cat && sqlEqOpt it.list_group (some g) && it.is_list

/-- Members of one category and list-group carrying `is_list = 1`. -/
def groupItems (db : DB) (cat : Nat) (g : String) : List Item :=
  db.items.filter (inGroup cat g)

/-- The `orden_lista` values of a list-group, in row order. -/
def groupPos (db : DB) (cat : Nat) (g : String) : List Int :=
  (groupItems db cat g).map (fun it => it.orden_lista)

/-- The canonical dense ordering 1..n. -/
def posList (n : Nat) : List Int :=
  (List.range n).map (fun i : Nat => (i : Int) + 1)

/-- Per-row post-processing shared by all item read paths: sensitive truthy
content is decrypted; a `DecryptionError` is caught per row and replaced by
the sentinel placeholder string (tags parsing is a no-op in the model since
tags are stored decoded). -/
def processRow (it : Item) : Item :=
  if it.is_sensitive && truthy it.content then
    match decrypt it.content with
    | some p => { it with content := p }
    | none => { it with content := Content.plain "[DECRYPTION ERROR]" }
  else it

/-- Method `get_item`: `SELECT * FROM items WHERE id = ?`, then per-row
processing; `None` when the id matches nothing. -/
def get_item (db : DB) (item_id : Nat) : Option Item :=
  (db.items.find? (fun it => it.id == item_id)).map processRow

/-- Method `get_items_by_category`: `SELECT * FROM items WHERE
category_id = ? ORDER BY created_at` (creation order is row order in the
model), then per-row processing. -/
def get_items_by_category (db : DB) (cat : Nat) : List Item :=
  (db.items.filter (fun it => it.category_id == cat)).map processRow

/-- Rows selected by `get_list_items` before ordering and processing:
`WHERE category_id = ? AND is_list = 1 AND list_group = ? AND
is_active = 1`. -/
def listRowsRaw (db : DB) (cat : Nat) (g : String) : List Item :=
  db.items.filter (fun it =>
    it.category_id == cat && it.is_list && sqlEqOpt it.list_group (some g) &&
      it.is_active)

/-- Method `get_list_items`: the raw rows ordered by `orden_lista ASC`,
then per-row processing. -/
def get_list_items (db : DB) (cat : Nat) (g : String) : List Item :=
  ((listRowsRaw db cat g).insertionSort
      (fun a b => a.orden_lista ≤ b.orden_lista)).map processRow

/-- Method `add_item`: encrypts truthy content of sensitive items
unconditionally, then `INSERT INTO items ...` (via `execute_update`, which
commits at once).  Returns the new row id. -/
def add_item (db : DB) (category_id : Nat) (label : String) (content : Content)
    (item_type : String) (icon : Option String) (is_sensitive : Bool)
    (is_favorite : Bool) (tags : Option (List String))
    (description : Option String) (working_dir : Option String)
    (color : Option String) (is_active : Bool) (is_archived : Bool)
    (is_list : Bool) (list_group : Option String) (orden_lista : Int) :
    Nat × DB :=
  let stored := if is_sensitive && truthy content then encrypt content else content
  let row : Item :=
    { id := db.nextId, category_id := category_id, label := label,
      content := stored, item_type := item_type, icon := icon,
      is_sensitive := is_sensitive, is_favorite := is_favorite,
      tags := tags.getD [], description := description,
      working_dir := working_dir, color := color, is_active := is_active,
      is_archived := is_archived, is_list := is_list,
      list_group := list_group, orden_lista := orden_lista }
  (db.nextId, { db with items := db.items ++ [row], nextId := db.nextId + 1 })

/-- Field writes of one `update_item` call applied to the matched row:
each supplied allowed field is written; a supplied `content` that is truthy
while the item is or becomes sensitive is encrypted only when
`is_encrypted` says it is not already ciphertext. -/
def applyItemUpdate (u : ItemUpdate) (will_be_sensitive : Bool)
    (it : Item) : Item :=
  { it with
    label := u.label.getD it.label,
    content := match u.content with
      | some v =>
        if will_be_sensitive && truthy v then
          if is_encrypted v then v else encrypt v
        else v
      | none => it.content,
    item_type := u.item_type.getD it.item_type,
    icon := match u.icon with | some v => some v | none => it.icon,
    is_sensitive := u.is_sensitive.getD it.is_sensitive,
    is_favorite := u.is_favorite.getD it.is_favorite,
    tags := u.tags.getD it.tags,
    description := match u.description with
      | some v => some v
      | none => it.description,
    working_dir := match u.working_dir with
      | some v => some v
      | none => it.working_dir,
    color := match u.color with | some v => some v | none => it.color,
    is_active := u.is_active.getD it.is_active,
    is_archived := u.is_archived.getD it.is_archived,
    is_list := u.is_list.getD it.is_list,
    list_group := match u.list_group with
      | some v => some v
      | none => it.list_group,
    orden_lista := u.orden_lista.getD it.orden_lista }

/-- Method `update_item`: fetches the current row (`get_item`); a missing id
logs a warning and returns with no write.  Otherwise the matched row (by
id) receives the supplied field writes, where the sensitivity used for the
content-encryption guard is the supplied `is_sensitive` if present,
otherwise the current one. -/
def update_item (db : DB) (item_id : Nat) (u : ItemUpdate) : DB :=
  match get_item db item_id with
  | none => db
  | some cur =>
    let will_be_sensitive := u.is_sensitive.getD cur.is_sensitive
    { db with items := db.items.map (fun it =>
        if it.id == item_id then applyItemUpdate u will_be_sensitive it
        else it) }

/-- Method `is_list_name_unique`: counts rows of the category whose
`list_group` equals the candidate name with `is_list = 1`, excluding (via
`list_group != ?`) an optional current name; unique means count zero. -/
def is_list_name_unique (db : DB) (cat : Nat) (list_name : String)
    (exclude_list : Option String) : Bool :=
  let count := match exclude_list with
    | some ex =>
      (db.items.filter (fun it =>
        inGroup cat list_name it && sqlNeOpt it.list_group (some ex))).length
    | none => (db.items.filter (inGroup cat list_name)).length
  count == 0

/-- Row inserted by iteration `orden` of the `create_list` loop, with the
defaults of the source (`label` defaults to a step name, `content` to the
empty string, `type` to TEXT, list fields forced). -/
def mkRow (cat : Nat) (name : String) (iid : Nat) (orden : Int)
    (s : ItemSpec) : Item :=
  let stored :=
    let c := s.content.getD (Content.plain "")
    if s.is_sensitive.getD false && truthy c then encrypt c else c
  { id := iid, category_id := cat,
    label := s.label.getD ("Paso " ++ toString orden),
    content := stored, item_type := s.item_type.getD "TEXT", icon := s.icon,
    is_sensitive := s.is_sensitive.getD false, is_favorite := false,
    tags := s.tags.getD [], description := s.description,
    working_dir := s.working_dir, color := s.color, is_active := true,
    is_archived := false, is_list := true, list_group := some name,
    orden_lista := orden }

/-- Insertion loop of `create_list`: one `add_item` per spec, `orden_lista`
enumerated from the given 1-based position. -/
def create_list_go (cat : Nat) (name : String) :
    DB → List ItemSpec → Int → List Nat × DB
  | db, [], _ => ([], db)
  | db, s :: rest, orden =>
    let step := add_item db cat (s.label.getD ("Paso " ++ toString orden))
      (s.content.getD (Content.plain "")) (s.item_type.getD "TEXT") s.icon
      (s.is_sensitive.getD false) false s.tags s.description s.working_dir
      s.color true false true (some name) orden
    let restRes := create_list_go cat name step.2 rest (orden + 1)
    (step.1 :: restRes.1, restRes.2)

/-- Method `create_list`: raises `ValueError` (modelled as `Except.error`)
on an empty spec list or a non-unique name, otherwise inserts all items
inside the transaction scope and returns their ids. -/
def create_list (db : DB) (cat : Nat) (name : String)
    (specs : List ItemSpec) : Except String (List Nat × DB) :=
  if specs.isEmpty then .error "la lista debe tener al menos 1 item"
  else if !(is_list_name_unique db cat name none) then
    .error "nombre de lista duplicado"
  else .ok (create_list_go cat name db specs 1)

/-- Insertion loop of `create_list` with a failure injected before the
`failAt`-th insert (1-based).  Every `add_item` goes through
`execute_update`, which commits immediately on the shared connection, so by
the time the failure raises, the earlier inserts are already committed; the
rollback of the enclosing `transaction()` context manager only undoes
uncommitted work.  The `error` value carries the state persisted after the
rollback. -/
def create_list_go_inj (cat : Nat) (name : String) :
    DB → List ItemSpec → Int → Nat → Except DB (List Nat × DB)
  | db, [], _, _ => .ok ([], db)
  | db, s :: rest, orden, failAt =>
    if failAt == 1 then .error db
    else
      let step := add_item db cat (s.label.getD ("Paso " ++ toString orden))
        (s.content.getD (Content.plain "")) (s.item_type.getD "TEXT") s.icon
        (s.is_sensitive.getD false) false s.tags s.description s.working_dir
        s.color true false true (some name) orden
      match create_list_go_inj cat name step.2 rest (orden + 1) (failAt - 1) with
      | .ok res => .ok (step.1 :: res.1, res.2)
      | .error d => .error d

/-- Method `create_list` under failure injection: the precondition checks
run first; a failure in the loop propagates (the source re-raises) and the
`error` carries the state left persisted by the per-insert commits. -/
def create_list_inj (db : DB) (cat : Nat) (name : String)
    (specs : List ItemSpec) (failAt : Nat) : Except DB (List Nat × DB) :=
  if specs.isEmpty then .error db
  else if !(is_list_name_unique db cat name none) then .error db
  else create_list_go_inj cat name db specs 1 failAt

/-- Row effect of the ranged UPDATE of `reorder_list_item` relative to the
moved item `m`: moving earlier (`new < old`) increments the rows of the
same category and list-group with `orden_lista` in `[new, old)`; moving
later decrements the rows with `orden_lista` in `(old, new]`. -/
def shiftFn (m : Item) (new_orden : Int) (it : Item) : Item :=
  if new_orden < m.orden_lista then
    if it.category_id == m.category_id &&
        sqlEqOpt it.list_group m.list_group &&
        new_orden ≤ it.orden_lista && it.orden_lista < m.orden_lista then
      { it with orden_lista := it.orden_lista + 1 }
    else it
  else
    if it.category_id == m.category_id &&
        sqlEqOpt it.list_group m.list_group &&
        m.orden_lista < it.orden_lista && it.orden_lista ≤ new_orden then
      { it with orden_lista := it.orden_lista - 1 }
    else it

/-- Row effect of the final point UPDATE of `reorder_list_item`: the moved
row (by id) is set to exactly the requested position. -/
def pointFn (item_id : Nat) (new_orden : Int) (it : Item) : Item :=
  if it.id == item_id then { it with orden_lista := new_orden } else it

/-- Method `reorder_list_item`: fetches the item; returns `False` with no
write when the id matches nothing or the row is not a list member; returns
`True` with no write when the requested position equals the current one.
Otherwise, inside one transaction, the ranged shift runs over all rows and
then the point update sets the moved row. -/
def reorder_list_item (db : DB) (item_id : Nat) (new_orden : Int) :
    Bool × DB :=
  match db.items.find? (fun it => it.id == item_id) with
  | none => (false, db)
  | some item =>
    if !item.is_list then (false, db)
    else if item.orden_lista == new_orden then (true, db)
    else
      let final := (db.items.map (shiftFn item new_orden)).map
        (pointFn item_id new_orden)
      (true, { db with items := final })

/-- Method `delete_list`: `DELETE FROM items WHERE category_id = ? AND
list_group = ? AND is_list = 1` inside a transaction; always returns
`True` (exceptions are caught and turned into `False`, a path the
deterministic model never takes). -/
def delete_list (db : DB) (cat : Nat) (list_group : String) : Bool × DB :=
  (true, { db with items := db.items.filter (fun it => !(inGroup cat list_group it)) })

/-- Blanket rename performed by the rename branch of `update_list`:
`UPDATE items SET list_group = ? WHERE category_id = ? AND list_group = ?
AND is_list = 1`. -/
def renameGroup (db : DB) (cat : Nat) (oldg newg : String) : DB :=
  { db with items := db.items.map (fun it =>
      if it.category_id == cat && sqlEqOpt it.list_group (some oldg) && it.is_list
      then { it with list_group := some newg } else it) }

/-- Body of `update_list` inside its `with self.transaction()` scope.  The
rename branch runs only for a truthy new name different from the old one and
raises on a name conflict (checked excluding the current name).  The
content-replace branch delegates to `delete_list` then `create_list`; both
open nested transaction scopes on the same connection whose commits persist
the work done so far, so an error raised afterwards (carried with the
persisted state in `Except.error`) cannot undo the delete. -/
def update_list_body (db : DB) (cat : Nat) (old_list_group : String)
    (new_list_group : Option String) (items_data : Option (List ItemSpec)) :
    Except (String × DB) DB :=
  let renameActive := match new_list_group with
    | some ng => !(ng == "") && !(ng == old_list_group)
    | none => false
  if renameActive &&
      !(is_list_name_unique db cat (new_list_group.getD "")
          (some old_list_group)) then
    .error ("el nombre ya existe en esta categoria", db)
  else
    let db1 := if renameActive then
        renameGroup db cat old_list_group (new_list_group.getD "")
      else db
    match items_data with
    | none => .ok db1
    | some specs =>
      let finalName := match new_list_group with
        | some ng => if ng == "" then old_list_group else ng
        | none => old_list_group
      let db2 := (delete_list db1 cat finalName).2
      match create_list db2 cat finalName specs with
      | .ok res => .ok res.2
      | .error m => .error (m, db2)

/-- Method `update_list`: runs the transaction body; any error raised inside
is logged and converted into a `False` return value (the state component is
whatever survived the rollback, given the nested per-statement commits). -/
def update_list (db : DB) (cat : Nat) (old_list_group : String)
    (new_list_group : Option String) (items_data : Option (List ItemSpec)) :
    Bool × DB :=
  match update_list_body db cat old_list_group new_list_group items_data with
  | .ok db1 => (true, db1)
  | .error e => (false, e.2)

/-- Method `trim_history`: `DELETE FROM clipboard_history WHERE id NOT IN
(SELECT id FROM clipboard_history ORDER BY copied_at DESC LIMIT ?)`.  With
the strictly increasing timestamps of the model, the rows selected by the
inner query are exactly those with fewer than `keep` strictly newer rows. -/
def trim_history (db : DB) (keep_latest : Nat) : DB :=
  { db with history := db.history.filter (fun e =>
      (db.history.filter (fun x => e.copied_at < x.copied_at)).length <
        keep_latest) }

/-- Method `add_to_history`: inserts the entry (committed via
`execute_update`), then auto-trims to the `max_history` setting.  Returns
the new entry id. -/
def add_to_history (db : DB) (item_id : Option Nat) (content : String) :
    Nat × DB :=
  let e : HistEntry :=
    { id := db.histNextId, item_id := item_id, content := content,
      copied_at := db.histTime }
  let db1 : DB :=
    { db with
      history := db.history ++ [e]
      histNextId := db.histNextId + 1
      histTime := db.histTime + 1 }
  (e.id, trim_history db1 db1.max_history)

/-! ## Helper lemmas -/

theorem processRow_id (it : Item) : (processRow it).id = it.id := by
  simp only [processRow]
  split
  · split <;> rfl
  · rfl

theorem processRow_is_sensitive (it : Item) :
    (processRow it).is_sensitive = it.is_sensitive := by
  simp only [processRow]
  split
  · split <;> rfl
  · rfl

theorem find?_map_comm {α : Type} (f : α → α) (p : α → Bool)
    (h : ∀ a, p (f a) = p a) :
    ∀ l : List α, (l.map f).find? p = (l.find? p).map f := by
  intro l
  induction l with
  | nil => rfl
  | cons a t ih =>
    by_cases hp : p a = true
    · rw [List.map_cons, List.find?_cons_of_pos _ ((h a).trans hp),
        List.find?_cons_of_pos _ hp]
      rfl
    · have hp2 : ¬ p a = true := hp
      rw [List.map_cons,
        List.find?_cons_of_neg _ (by rw [h a]; exact hp2),
        List.find?_cons_of_neg _ hp2, ih]

/-! ## Claim C9: no-op reposition -/

/-- Claim C9 (confirmed): for every list item, calling `reorder_list_item`
with a requested position equal to the current `orden_lista` of the item
performs no write: the returned state is exactly the input state (and the
call reports success). -/
theorem reorder_noop_frame (db : DB) (item_id : Nat) (m : Item)
    (hfind : db.items.find? (fun it => it.id == item_id) = some m)
    (hlist : m.is_list = true) :
    reorder_list_item db item_id m.orden_lista = (true, db) := by
  simp [reorder_list_item, hfind, hlist]

/-- Witness for C9 on a concrete store: the single list item of `ex1DB`
sits at position 1 and repositioning it to 1 changes nothing. -/
def ex1DB : DB :=
  match create_list emptyDB 1 "L" [{}] with
  | .ok r => r.2
  | .error _ => emptyDB

theorem reorder_noop_frame_witness :
    reorder_list_item ex1DB 1 (1 : Int) = (true, ex1DB) := by
  have h := reorder_noop_frame ex1DB 1
    (mkRow 1 "L" 1 1 {}) (by decide) (by decide)
  simpa using h

/-! ## Claim C10: update of a missing item id -/

/-- Claim C10 (confirmed): for every item id that references no existing
item, `update_item` returns normally (it is a total function in the model;
the source logs a warning and returns `None`) and leaves the entire store
state unchanged, regardless of which field updates are supplied. -/
theorem update_item_missing_id_frame (db : DB) (item_id : Nat)
    (u : ItemUpdate) (h : get_item db item_id = none) :
    update_item db item_id u = db := by
  simp [update_item, h]

theorem update_item_missing_id_frame_witness :
    update_item emptyDB 7 { label := some "x" } = emptyDB :=
  update_item_missing_id_frame emptyDB 7 { label := some "x" } (by decide)

/-! ## Claim C3: atomicity of create_list (code bug) -/

/-- State left persisted when an injected call fails. -/
def persistedOf : Except DB (List Nat × DB) → DB
  | .error d => d
  | .ok r => r.2

/-- Five-item specification list used in the failure-injection scenario of
the spec (a list creation of 5 items). -/
def specsC3 : List ItemSpec := [{}, {}, {}, {}, {}]

/-- Claim C3 (code bug): the spec demands that a failure injected mid-way
through a creation of 5 items leaves zero items of that list persisted.
The source wraps the insert loop in `with self.transaction()`, but each
`add_item` call inside the loop goes through `execute_update`, which
commits immediately on the shared connection; a failure before the third
insert therefore leaves the two already-committed items of the list in the
store after the rollback, not zero. -/
theorem create_list_partial_persist_bug :
    (create_list_inj emptyDB 1 "L" specsC3 3).isOk = false ∧
    ((persistedOf (create_list_inj emptyDB 1 "L" specsC3 3)).items.filter
        (inGroup 1 "L")).length = 2 := by
  constructor
  · rfl
  · rfl

/-! ## Claim C2: reposition shift policy -/

/-- Concrete store holding one list of five items at positions 1..5,
built through `create_list`. -/
def ex5 : DB :=
  match create_list emptyDB 1 "L" [{}, {}, {}, {}, {}] with
  | .ok r => r.2
  | .error _ => emptyDB

/-- Claim C2 (confirmed): for a list item at position `old` and a requested
position `new ≠ old`, `reorder_list_item` increments by one the
`orden_lista` of every same-group row with position in `[new, old)` when
moving earlier, decrements by one every same-group row with position in
`(old, new]` when moving later, sets the moved row (by id) to exactly
`new`, and touches nothing else; in particular, in a group of size 5 with
positions 1..5, moving the item at position 4 to position 1 makes the
moved item 1, the former 1,2,3 become 2,3,4 and leaves the former 5
untouched. -/
theorem reorder_shift_spec (db : DB) (item_id : Nat) (new_orden : Int)
    (m : Item)
    (hfind : db.items.find? (fun it => it.id == item_id) = some m)
    (hlist : m.is_list = true) (hne : ¬ m.orden_lista = new_orden) :
    (reorder_list_item db item_id new_orden).1 = true ∧
    (reorder_list_item db item_id new_orden).2.items = db.items.map (fun r =>
      if r.id == item_id then { r with orden_lista := new_orden }
      else if new_orden < m.orden_lista then
        if r.category_id == m.category_id &&
            sqlEqOpt r.list_group m.list_group &&
            new_orden ≤ r.orden_lista && r.orden_lista < m.orden_lista then
          { r with orden_lista := r.orden_lista + 1 }
        else r
      else
        if r.category_id == m.category_id &&
            sqlEqOpt r.list_group m.list_group &&
            m.orden_lista < r.orden_lista && r.orden_lista ≤ new_orden then
          { r with orden_lista := r.orden_lista - 1 }
        else r) ∧
    groupPos (reorder_list_item ex5 4 1).2 1 "L" = [2, 3, 4, 1, 5] := by
  have hbeq : (m.orden_lista == new_orden) = false := by
    simpa using hne
  refine ⟨?_, ?_, by decide⟩
  · simp [reorder_list_item, hfind, hlist, hbeq]
  · simp only [reorder_list_item, hfind, hlist, Bool.not_true,
      Bool.false_eq_true, if_false, hbeq, List.map_map]
    refine List.map_congr_left ?_
    intro r _
    obtain ⟨rid, rcat, rlab, rcon, rty, ric, rsen, rfav, rtg, rde, rwd,
      rco, rac, rar, rli, rgr, ror⟩ := r
    simp only [Function.comp_apply, shiftFn, pointFn]
    split_ifs <;> simp_all

/-- Witness for C2: the shift policy applied concretely to `ex5`, moving
the item at position 4 (row id 4) to position 1. -/
theorem reorder_shift_spec_witness :
    (reorder_list_item ex5 4 1).1 = true ∧
    groupPos (reorder_list_item ex5 4 1).2 1 "L" = [2, 3, 4, 1, 5] := by
  have h := reorder_shift_spec ex5 4 1 (mkRow 1 "L" 4 4 {})
    (by decide) (by decide) (by decide)
  exact ⟨h.1, h.2.2⟩

/-! ## Claim C4: write failures are flagged, not raised (corrected) -/

/-- Concrete store holding two single-item lists named A and B in
category 1, built through `create_list`. -/
def dbAB : DB :=
  match create_list emptyDB 1 "A" [{}] with
  | .ok r =>
    match create_list r.2 1 "B" [{}] with
    | .ok q => q.2
    | .error _ => r.2
  | .error _ => emptyDB

/-- Counterexample to claim C4 as stated: renaming list A to the already
taken name B raises a `ValueError` inside the transaction scope of
`update_list` (the body results in an error, and the state is rolled back),
but `update_list` catches the error and returns the failure flag `False`
to its caller instead of letting the error propagate. -/
theorem update_list_swallows_failure_cex :
    update_list_body dbAB 1 "A" (some "B") none =
      Except.error ("el nombre ya existe en esta categoria", dbAB) ∧
    update_list dbAB 1 "A" (some "B") none = (false, dbAB) := by
  exact ⟨rfl, rfl⟩

/-- Claim C4 (amended): a failure inside the transaction scope rolls the
transaction back, and the error propagates out of the scope; `create_list`
re-raises it to the caller, but `update_list` (and likewise
`reorder_list_item` and `delete_list`) converts the propagated error into
a `False` return flag instead of raising. -/
theorem write_failure_rollback_flagged :
    (∀ (db : DB) (cat : Nat) (og : String) (ng : Option String)
        (idata : Option (List ItemSpec)) (m : String) (d : DB),
      update_list_body db cat og ng idata = Except.error (m, d) →
      update_list db cat og ng idata = (false, d)) ∧
    (∀ (db : DB) (cat : Nat) (n : String) (specs : List ItemSpec),
      specs.isEmpty = false → is_list_name_unique db cat n none = false →
      create_list db cat n specs = Except.error "nombre de lista duplicado") := by
  constructor
  · intro db cat og ng idata m d h
    simp [update_list, h]
  · intro db cat n specs h1 h2
    simp [create_list, h1, h2]

theorem write_failure_rollback_flagged_witness :
    update_list dbAB 1 "A" (some "B") none = (false, dbAB) ∧
    create_list dbAB 1 "A" [{}] = Except.error "nombre de lista duplicado" := by
  constructor
  · exact write_failure_rollback_flagged.1 dbAB 1 "A" (some "B") none
      "el nombre ya existe en esta categoria" dbAB rfl
  · exact write_failure_rollback_flagged.2 dbAB 1 "A" [{}] rfl rfl

/-! ## Rows appended by the create_list loop -/

/-- Rows inserted by `create_list_go` starting at row id `iid` and
position `orden`. -/
def mkRows (cat : Nat) (name : String) : Nat → Int → List ItemSpec → List Item
  | _, _, [] => []
  | iid, orden, s :: rest =>
    mkRow cat name iid orden s :: mkRows cat name (iid + 1) (orden + 1) rest

theorem create_list_go_spec (cat : Nat) (name : String) :
    ∀ (specs : List ItemSpec) (db : DB) (orden : Int),
    (create_list_go cat name db specs orden).2 =
      { db with
        items := db.items ++ mkRows cat name db.nextId orden specs
        nextId := db.nextId + specs.length } := by
  intro specs
  induction specs with
  | nil => intro db orden; simp [create_list_go, mkRows]
  | cons s rest ih =>
    intro db orden
    simp only [create_list_go, mkRows]
    rw [ih]
    simp only [add_item, mkRow, List.length_cons, DB.mk.injEq]
    refine ⟨by simp, by omega, ?_⟩
    simp

theorem mkRows_length (cat : Nat) (name : String) :
    ∀ (specs : List ItemSpec) (iid : Nat) (orden : Int),
    (mkRows cat name iid orden specs).length = specs.length := by
  intro specs
  induction specs with
  | nil => intro iid orden; rfl
  | cons s rest ih => intro iid orden; simp [mkRows, ih]

theorem mkRows_fields (cat : Nat) (name : String) :
    ∀ (specs : List ItemSpec) (iid : Nat) (orden : Int) (r : Item),
    r ∈ mkRows cat name iid orden specs →
    r.category_id = cat ∧ r.list_group = some name ∧ r.is_list = true ∧
      r.is_active = true := by
  intro specs
  induction specs with
  | nil => intro iid orden r hr; simp [mkRows] at hr
  | cons s rest ih =>
    intro iid orden r hr
    simp only [mkRows, List.mem_cons] at hr
    rcases hr with h | h
    · subst h; exact ⟨rfl, rfl, rfl, rfl⟩
    · exact ih (iid + 1) (orden + 1) r h

theorem mkRows_inGroup (cat : Nat) (name : String) (specs : List ItemSpec)
    (iid : Nat) (orden : Int) (r : Item)
    (hr : r ∈ mkRows cat name iid orden specs) : inGroup cat name r = true := by
  obtain ⟨h1, h2, h3, _⟩ := mkRows_fields cat name specs iid orden r hr
  simp [inGroup, h1, h2, h3, sqlEqOpt]

/-! ## Claim C6: list-name uniqueness -/

/-- Claim C6 (confirmed): creating a second list with the same name in the
same category fails; creating a list with the same name in a different
category (where the name is still unused) succeeds; and renaming a list to
its own current name succeeds with no write and no false conflict. -/
theorem list_name_uniqueness (db : DB) (cat cat2 : Nat) (n : String)
    (specs specs2 specs3 : List ItemSpec) (ids : List Nat) (db1 : DB)
    (h1 : create_list db cat n specs = Except.ok (ids, db1))
    (hcat : ¬ cat2 = cat)
    (hu2 : is_list_name_unique db cat2 n none = true)
    (hs2 : specs2.isEmpty = false) (hs3 : specs3.isEmpty = false) :
    create_list db1 cat n specs2 = Except.error "nombre de lista duplicado" ∧
    (∃ r, create_list db1 cat2 n specs3 = Except.ok r) ∧
    update_list db1 cat n (some n) none = (true, db1) := by
  simp only [create_list] at h1
  by_cases hemp : specs.isEmpty = true
  · simp [hemp] at h1
  · by_cases huniq : is_list_name_unique db cat n none = true
    · simp only [hemp, Bool.false_eq_true, if_false, huniq, Bool.not_true,
        if_neg] at h1
      have hdb1 : db1 = (create_list_go cat n db specs 1).2 := by
        injection h1 with h2
        rw [h2]
      have hitems : db1.items =
          db.items ++ mkRows cat n db.nextId 1 specs := by
        rw [hdb1, create_list_go_spec]
      have hlen : 1 ≤ specs.length := by
        cases specs with
        | nil => simp at hemp
        | cons a t => simp
      refine ⟨?_, ?_, ?_⟩
      · -- same category, same name: the uniqueness count is now positive
        have hcount : (db1.items.filter (inGroup cat n)).length ≠ 0 := by
          rw [hitems, List.filter_append]
          have hfull : (mkRows cat n db.nextId 1 specs).filter (inGroup cat n)
              = mkRows cat n db.nextId 1 specs := by
            apply List.filter_eq_self.mpr
            intro r hr
            exact mkRows_inGroup cat n specs db.nextId 1 r hr
          rw [hfull]
          have := mkRows_length cat n specs db.nextId 1
          simp only [List.length_append]
          omega
        have hfalse : is_list_name_unique db1 cat n none = false := by
          simp only [is_list_name_unique]
          simpa using hcount
        simp [create_list, hs2, hfalse]
      · -- other category: the name is still unused there
        have hzero : (db.items.filter (inGroup cat2 n)).length = 0 := by
          simpa [is_list_name_unique] using hu2
        have hnone : (mkRows cat n db.nextId 1 specs).filter (inGroup cat2 n)
            = [] := by
          apply List.filter_eq_nil_iff.mpr
          intro r hr
          obtain ⟨hc, _, _, _⟩ :=
            mkRows_fields cat n specs db.nextId 1 r hr
          simp [inGroup, hc, hcat]
          intro hcc
          exact absurd hcc.symm hcat
        have htrue : is_list_name_unique db1 cat2 n none = true := by
          simp only [is_list_name_unique, hitems, List.filter_append, hnone]
          simpa using hzero
        refine ⟨(create_list_go cat2 n db1 specs3 1), ?_⟩
        simp [create_list, hs3, htrue]
      · -- rename to the own current name: the rename branch is skipped
        simp [update_list, update_list_body]
    · simp only [hemp, Bool.false_eq_true, if_false] at h1
      rw [if_pos (by simp [Bool.not_eq_true] at huniq; simp [huniq])] at h1
      exact absurd h1 (by simp)

theorem list_name_uniqueness_witness :
    create_list ex1DB 1 "L" [{}] = Except.error "nombre de lista duplicado" ∧
    (∃ r, create_list ex1DB 2 "L" [{}] = Except.ok r) ∧
    update_list ex1DB 1 "L" (some "L") none = (true, ex1DB) :=
  list_name_uniqueness emptyDB 1 2 "L" [{}] [{}] [{}] [1] ex1DB
    rfl (by decide) rfl rfl rfl

/-! ## Claim C5: update path never re-encrypts ciphertext -/

theorem applyItemUpdate_id (u : ItemUpdate) (w : Bool) (it : Item) :
    (applyItemUpdate u w it).id = it.id := rfl

theorem applyItemUpdate_is_sensitive (u : ItemUpdate) (w : Bool)
    (it : Item) :
    (applyItemUpdate u w it).is_sensitive = u.is_sensitive.getD it.is_sensitive
    := rfl

theorem applyItemUpdate_content (u : ItemUpdate) (w : Bool) (it : Item)
    (v : Content) (hc : u.content = some v) :
    (applyItemUpdate u w it).content =
      if w && truthy v then (if is_encrypted v then v else encrypt v)
      else v := by
  simp [applyItemUpdate, hc]

theorem update_item_find (db : DB) (item_id : Nat) (u : ItemUpdate)
    (cur : Item)
    (hfind : db.items.find? (fun it => it.id == item_id) = some cur) :
    (update_item db item_id u).items.find? (fun it => it.id == item_id) =
      some (applyItemUpdate u (u.is_sensitive.getD cur.is_sensitive) cur) := by
  have hget : get_item db item_id = some (processRow cur) := by
    simp [get_item, hfind]
  have hp : (cur.id == item_id) = true := by
    have h0 := List.find?_some hfind
    simpa using h0
  simp only [update_item, hget, processRow_is_sensitive]
  rw [find?_map_comm _ _ (fun a => by
    by_cases h : (a.id == item_id) = true
    · simp [h, applyItemUpdate_id]
    · simp [h]), hfind]
  simp [hp]
  intro h
  exact absurd (by simpa using hp) h

/-- Claim C5 (confirmed, gateway modelled from the spec): a call to
`update_item` that writes the content field of a sensitive item stores
`encrypt v` only when `is_encrypted` reports the supplied value `v` is not
already ciphertext: ciphertext is stored unchanged, truthy plaintext is
stored singly encrypted, and repeating the identical update leaves the
stored content exactly as after the first write. -/
theorem update_item_encrypt_guard (db : DB) (item_id : Nat) (u : ItemUpdate)
    (cur : Item) (v : Content)
    (hfind : db.items.find? (fun it => it.id == item_id) = some cur)
    (hsens : u.is_sensitive.getD cur.is_sensitive = true)
    (hc : u.content = some v) :
    ((update_item db item_id u).items.find? (fun it => it.id == item_id)).map
        (fun it => it.content) =
      some (if truthy v && !(is_encrypted v) then encrypt v else v) ∧
    (is_encrypted v = true →
      ((update_item db item_id u).items.find?
          (fun it => it.id == item_id)).map (fun it => it.content) = some v) ∧
    (∀ s : String, v = Content.plain s → (s == "") = false →
      ((update_item db item_id u).items.find?
          (fun it => it.id == item_id)).map (fun it => it.content) =
        some (encrypt v) ∧ cipherDepth (encrypt v) = 1) ∧
    ((update_item (update_item db item_id u) item_id u).items.find?
        (fun it => it.id == item_id)).map (fun it => it.content) =
      ((update_item db item_id u).items.find?
          (fun it => it.id == item_id)).map (fun it => it.content) := by
  have h1 := update_item_find db item_id u cur hfind
  rw [hsens] at h1
  have ha1sens : (applyItemUpdate u true cur).is_sensitive = true :=
    (applyItemUpdate_is_sensitive u true cur).trans hsens
  have hw2 : u.is_sensitive.getD (applyItemUpdate u true cur).is_sensitive
      = true := by
    cases hu : u.is_sensitive with
    | none => simpa [hu] using ha1sens
    | some b => simpa [hu] using hsens
  have h2 := update_item_find (update_item db item_id u) item_id u
    (applyItemUpdate u true cur) h1
  rw [hw2] at h2
  have hcontent : ∀ it : Item, (applyItemUpdate u true it).content =
      if truthy v && !(is_encrypted v) then encrypt v else v := by
    intro it
    rw [applyItemUpdate_content u true it v hc]
    by_cases ht : truthy v = true
    · by_cases he : is_encrypted v = true
      · simp [ht, he]
      · simp [ht, he]
    · simp [ht]
  refine ⟨?_, ?_, ?_, ?_⟩
  · rw [h1]
    simp only [Option.map_some', hcontent]
  · intro he
    rw [h1]
    simp only [Option.map_some', hcontent, he, Bool.not_true,
      Bool.and_false, Bool.false_eq_true, if_false]
  · intro s hv hs
    constructor
    · rw [h1]
      simp only [Option.map_some', hcontent]
      rw [if_pos]
      subst hv
      simp [truthy, is_encrypted, hs]
    · subst hv
      rfl
  · rw [h1, h2]
    simp only [Option.map_some', hcontent]

/-- Concrete sensitive row as inserted by `add_item` (the stored content is
already encrypted once). -/
def sensRow : Item :=
  { id := 1, category_id := 1, label := "secret",
    content := Content.cipher (Content.plain "p"), item_type := "TEXT",
    icon := none, is_sensitive := true, is_favorite := false, tags := [],
    description := none, working_dir := none, color := none,
    is_active := true, is_archived := false, is_list := false,
    list_group := none, orden_lista := 0 }

def dbSens : DB :=
  (add_item emptyDB 1 "secret" (Content.plain "p") "TEXT" none true false
    none none none none true false false none 0).2

theorem update_item_encrypt_guard_witness :
    ((update_item dbSens 1 { content := some (Content.plain "q") }).items.find?
        (fun it => it.id == 1)).map (fun it => it.content) =
      some (encrypt (Content.plain "q")) ∧
    cipherDepth (encrypt (Content.plain "q")) = 1 := by
  have h := update_item_encrypt_guard dbSens 1
    { content := some (Content.plain "q") } sensRow (Content.plain "q")
    rfl rfl rfl
  exact h.2.2.1 "q" rfl rfl

/-! ## Claim C8: corrupted rows degrade to a sentinel, reads continue -/

/-- Sensitive row whose stored ciphertext cannot be decrypted. -/
def decryptFails (it : Item) : Prop :=
  it.is_sensitive = true ∧ truthy it.content = true ∧
    decrypt it.content = none

/-- Claim C8 (confirmed, gateway modelled from the spec): every item read
path returns one output row per selected row even when a sensitive row's
ciphertext cannot be decrypted; the corrupted row's content is replaced by
the sentinel placeholder, decryptable sensitive rows come back decrypted,
and non-sensitive rows come back untouched. -/
theorem read_paths_degrade_per_row (db : DB) (cat : Nat) (g : String) :
    (get_items_by_category db cat).length =
      (db.items.filter (fun it => it.category_id == cat)).length ∧
    (get_list_items db cat g).length = (listRowsRaw db cat g).length ∧
    (∀ r ∈ db.items.filter (fun it => it.category_id == cat),
      ∃ q ∈ get_items_by_category db cat, q.id = r.id ∧
        (decryptFails r → q.content = Content.plain "[DECRYPTION ERROR]") ∧
        (r.is_sensitive = true →
          ∀ p, decrypt r.content = some p → q.content = p) ∧
        (r.is_sensitive = false → q.content = r.content)) ∧
    (∀ r ∈ listRowsRaw db cat g,
      ∃ q ∈ get_list_items db cat g, q.id = r.id ∧
        (decryptFails r → q.content = Content.plain "[DECRYPTION ERROR]") ∧
        (r.is_sensitive = true →
          ∀ p, decrypt r.content = some p → q.content = p) ∧
        (r.is_sensitive = false → q.content = r.content)) := by
  have htr : ∀ (c : Content) (p : Content), decrypt c = some p →
      truthy c = true := by
    intro c p hd
    cases c with
    | plain s => simp [decrypt] at hd
    | cipher d => rfl
    | malformed => simp [decrypt] at hd
  have hrow : ∀ r : Item,
      (processRow r).id = r.id ∧
      (decryptFails r → (processRow r).content =
        Content.plain "[DECRYPTION ERROR]") ∧
      (r.is_sensitive = true →
        ∀ p, decrypt r.content = some p → (processRow r).content = p) ∧
      (r.is_sensitive = false → (processRow r).content = r.content) := by
    intro r
    refine ⟨processRow_id r, ?_, ?_, ?_⟩
    · intro hdf
      obtain ⟨hs, ht, hd⟩ := hdf
      simp [processRow, hs, ht, hd]
    · intro hs p hd
      simp [processRow, hs, htr r.content p hd, hd]
    · intro hs
      simp [processRow, hs]
  refine ⟨?_, ?_, ?_, ?_⟩
  · simp [get_items_by_category]
  · simp only [get_list_items, List.length_map]
    exact (List.perm_insertionSort _ _).length_eq
  · intro r hr
    refine ⟨processRow r, List.mem_map_of_mem processRow hr, ?_⟩
    exact hrow r
  · intro r hr
    have hmem : r ∈ (listRowsRaw db cat g).insertionSort
        (fun a b => a.orden_lista ≤ b.orden_lista) :=
      ((List.perm_insertionSort _ _).mem_iff).mpr hr
    refine ⟨processRow r, List.mem_map_of_mem processRow hmem, ?_⟩
    exact hrow r

/-- Store with one corrupted sensitive row and one healthy row. -/
def corruptRow : Item :=
  { id := 1, category_id := 1, label := "bad", content := Content.malformed,
    item_type := "TEXT", icon := none, is_sensitive := true,
    is_favorite := false, tags := [], description := none,
    working_dir := none, color := none, is_active := true,
    is_archived := false, is_list := false, list_group := none,
    orden_lista := 0 }

def healthyRow : Item :=
  { corruptRow with
    id := 2
    is_sensitive := false
    content := Content.plain "ok" }

def dbCorrupt : DB :=
  { emptyDB with
    items := [corruptRow, healthyRow]
    nextId := 3 }

theorem read_paths_degrade_per_row_witness :
    (get_items_by_category dbCorrupt 1).length = 2 ∧
    (∃ q ∈ get_items_by_category dbCorrupt 1, q.id = 1 ∧
      q.content = Content.plain "[DECRYPTION ERROR]") := by
  have h := read_paths_degrade_per_row dbCorrupt 1 "X"
  constructor
  · rw [h.1]
    rfl
  · obtain ⟨q, hq, hid, hcorr, _, _⟩ := h.2.2.1 corruptRow (by decide)
    exact ⟨q, hq, hid, hcorr ⟨rfl, rfl, rfl⟩⟩

/-! ## Claim C7: clipboard-history bound -/

/-- Repeated `add_to_history` calls, one per `(item_id, content)` input. -/
def addAll (db : DB) : List (Option Nat × String) → DB
  | [] => db
  | e :: rest => addAll (add_to_history db e.1 e.2).2 rest

/-- Entry inserted by one `add_to_history` call. -/
def newEntry (db : DB) (i : Option Nat) (c : String) : HistEntry :=
  { id := db.histNextId, item_id := i, content := c,
    copied_at := db.histTime }

/-- The history entries a sequence of `add_to_history` calls creates, in
insertion order (ids and timestamps advance per call even when older
entries are evicted). -/
def createdEntries (db : DB) : List (Option Nat × String) → List HistEntry
  | [] => []
  | e :: rest =>
    newEntry db e.1 e.2 :: createdEntries (add_to_history db e.1 e.2).2 rest

/-- History well-formedness maintained by the model: timestamps strictly
increase in row order and stay below the clock. -/
def WFh (db : DB) : Prop :=
  db.history.Pairwise (fun a b => a.copied_at < b.copied_at) ∧
  ∀ e ∈ db.history, e.copied_at < db.histTime

theorem trim_sorted (keep : Nat) :
    ∀ h : List HistEntry,
    h.Pairwise (fun a b => a.copied_at < b.copied_at) →
    h.filter (fun e =>
        (h.filter (fun x => e.copied_at < x.copied_at)).length < keep) =
      h.drop (h.length - keep) := by
  intro h
  induction h with
  | nil => intro _; simp
  | cons a t ih =>
    intro hpw
    have ha : ∀ x ∈ t, a.copied_at < x.copied_at :=
      (List.pairwise_cons.mp hpw).1
    have htp : t.Pairwise (fun a b => a.copied_at < b.copied_at) :=
      (List.pairwise_cons.mp hpw).2
    have hheadfull : t.filter (fun x => a.copied_at < x.copied_at) = t :=
      List.filter_eq_self.mpr (fun x hx => by simpa using ha x hx)
    have htail : t.filter (fun e =>
          ((a :: t).filter (fun x => e.copied_at < x.copied_at)).length
            < keep)
        = t.filter (fun e =>
          (t.filter (fun x => e.copied_at < x.copied_at)).length < keep) := by
      apply List.filter_congr
      intro e he
      have hno : ¬ (e.copied_at < a.copied_at) := by
        have := ha e he
        omega
      rw [List.filter_cons_of_neg (by simpa using hno)]
    by_cases hk : t.length < keep
    · have h0 : t.length + 1 - keep = 0 := by omega
      have h0t : t.length - keep = 0 := by omega
      rw [List.filter_cons_of_pos (by
        rw [List.filter_cons_of_neg (by simp), hheadfull]
        exact decide_eq_true hk)]
      rw [htail, ih htp]
      simp [h0, h0t]
    · have hstep : t.length + 1 - keep = (t.length - keep) + 1 := by omega
      rw [List.filter_cons_of_neg (by
        rw [List.filter_cons_of_neg (by simp), hheadfull]
        simpa using hk)]
      rw [htail, ih htp]
      simp only [List.length_cons, hstep, List.drop_succ_cons]

theorem add_to_history_spec (db : DB) (i : Option Nat) (c : String)
    (hwf : WFh db) :
    (add_to_history db i c).2.history =
      (db.history ++ [newEntry db i c]).drop
          (db.history.length + 1 - db.max_history) ∧
    WFh (add_to_history db i c).2 ∧
    (add_to_history db i c).2.max_history = db.max_history ∧
    (add_to_history db i c).2.histTime = db.histTime + 1 := by
  have hpw1 : (db.history ++ [newEntry db i c]).Pairwise
      (fun a b => a.copied_at < b.copied_at) := by
    rw [List.pairwise_append]
    refine ⟨hwf.1, by simp, ?_⟩
    intro x hx y hy
    simp only [List.mem_singleton] at hy
    subst hy
    exact hwf.2 x hx
  have hh : (add_to_history db i c).2.history =
      (db.history ++ [newEntry db i c]).drop
          (db.history.length + 1 - db.max_history) := by
    simp only [add_to_history, trim_history, newEntry]
    rw [trim_sorted _ _ (by simpa [newEntry] using hpw1)]
    simp
  refine ⟨hh, ⟨?_, ?_⟩, rfl, rfl⟩
  · rw [hh]
    exact hpw1.sublist (List.drop_sublist _ _)
  · intro e he
    rw [hh] at he
    have hmem := (List.drop_sublist _ _).mem he
    have ht : (add_to_history db i c).2.histTime = db.histTime + 1 := rfl
    rw [ht]
    rcases List.mem_append.mp hmem with h1 | h1
    · have := hwf.2 e h1
      omega
    · simp only [List.mem_singleton] at h1
      subst h1
      simp only [newEntry]
      omega

theorem createdEntries_length :
    ∀ (es : List (Option Nat × String)) (db : DB),
    (createdEntries db es).length = es.length := by
  intro es
  induction es with
  | nil => intro db; rfl
  | cons e rest ih => intro db; simp [createdEntries, ih]

theorem createdEntries_times :
    ∀ (es : List (Option Nat × String)) (db : DB),
    (createdEntries db es).Pairwise (fun a b => a.copied_at < b.copied_at) ∧
    ∀ x ∈ createdEntries db es, db.histTime ≤ x.copied_at := by
  intro es
  induction es with
  | nil => intro db; exact ⟨List.Pairwise.nil, by simp [createdEntries]⟩
  | cons e rest ih =>
    intro db
    have ht : (add_to_history db e.1 e.2).2.histTime = db.histTime + 1 := rfl
    obtain ⟨hpw, hlb⟩ := ih (add_to_history db e.1 e.2).2
    rw [ht] at hlb
    constructor
    · simp only [createdEntries]
      rw [List.pairwise_cons]
      refine ⟨?_, hpw⟩
      intro x hx
      have := hlb x hx
      simp only [newEntry]
      omega
    · intro x hx
      simp only [createdEntries, List.mem_cons] at hx
      rcases hx with h | h
      · subst h; simp [newEntry]
      · have := hlb x h
        omega

theorem addAll_spec :
    ∀ (es : List (Option Nat × String)) (db : DB), WFh db →
    db.history.length ≤ db.max_history →
    (addAll db es).history =
      (db.history ++ createdEntries db es).drop
        (db.history.length + es.length - db.max_history) ∧
    WFh (addAll db es) ∧
    (addAll db es).max_history = db.max_history ∧
    (addAll db es).history.length =
      min (db.history.length + es.length) db.max_history := by
  intro es
  induction es with
  | nil =>
    intro db hwf hlen
    refine ⟨?_, hwf, rfl, ?_⟩
    · have h0 : db.history.length +
          ([] : List (Option Nat × String)).length - db.max_history = 0 := by
        simp only [List.length_nil]
        omega
      simp only [addAll, createdEntries, List.append_nil, h0, List.drop_zero]
    · simp only [addAll, List.length_nil]
      omega
  | cons e rest ih =>
    intro db hwf hlen
    obtain ⟨hh1, hwf1, hcap1, htime1⟩ := add_to_history_spec db e.1 e.2 hwf
    have hlen1 : (add_to_history db e.1 e.2).2.history.length =
        min (db.history.length + 1) db.max_history := by
      rw [hh1, List.length_drop]
      simp only [List.length_append, List.length_cons, List.length_nil]
      omega
    have hle1 : (add_to_history db e.1 e.2).2.history.length ≤
        db.max_history := by
      rw [hlen1]; omega
    obtain ⟨ihh, ihwf, ihcap, ihlen⟩ :=
      ih (add_to_history db e.1 e.2).2 hwf1 (by rw [hcap1]; exact hle1)
    have haddall : addAll db (e :: rest) =
        addAll (add_to_history db e.1 e.2).2 rest := rfl
    have hcreated : createdEntries db (e :: rest) =
        newEntry db e.1 e.2 ::
          createdEntries (add_to_history db e.1 e.2).2 rest := rfl
    refine ⟨?_, by rw [haddall]; exact ihwf, ?_, ?_⟩
    · rw [haddall, ihh, hcap1, hcreated]
      rw [show db.history ++ newEntry db e.1 e.2 ::
            createdEntries (add_to_history db e.1 e.2).2 rest =
          (db.history ++ [newEntry db e.1 e.2]) ++
            createdEntries (add_to_history db e.1 e.2).2 rest from by simp]
      rw [hh1]
      rw [← List.drop_append_of_le_length (by
        simp only [List.length_append, List.length_cons, List.length_nil]
        omega)]
      rw [List.drop_drop]
      congr 1
      simp only [List.length_drop, List.length_append, List.length_cons,
        List.length_nil]
      omega
    · rw [haddall, ihcap, hcap1]
    · rw [haddall, ihlen, hlen1, hcap1]
      simp only [List.length_cons]
      omega

/-- Claim C7 (confirmed): starting from any well-formed store, after a
sequence of `M > cap` insertions (`cap` the configured `max_history`),
exactly `cap` entries remain; the survivors are the suffix of the
chronological entry list (every evicted entry is strictly older than every
survivor, so the remaining entries are the `cap` most recent by
timestamp); and the entry count never exceeds `cap` after any insertion of
the sequence. -/
theorem clipboard_history_bound (db : DB)
    (es : List (Option Nat × String)) (hwf : WFh db)
    (hM : db.max_history < es.length) :
    (addAll db es).history.length = db.max_history ∧
    (addAll db es).history =
      (db.history ++ createdEntries db es).drop
        (db.history.length + es.length - db.max_history) ∧
    (∀ d ∈ db.history ++ createdEntries db es,
      d ∉ (addAll db es).history →
      ∀ e ∈ (addAll db es).history, d.copied_at < e.copied_at) ∧
    (∀ k, 1 ≤ k →
      (addAll db (es.take k)).history.length ≤ db.max_history) := by
  have hallpw : (db.history ++ createdEntries db es).Pairwise
      (fun a b => a.copied_at < b.copied_at) := by
    rw [List.pairwise_append]
    refine ⟨hwf.1, (createdEntries_times es db).1, ?_⟩
    intro x hx y hy
    have h1 := hwf.2 x hx
    have h2 := (createdEntries_times es db).2 y hy
    omega
  cases es with
  | nil => simp at hM
  | cons e rest =>
    obtain ⟨hh1, hwf1, hcap1, htime1⟩ := add_to_history_spec db e.1 e.2 hwf
    have hlen1 : (add_to_history db e.1 e.2).2.history.length =
        min (db.history.length + 1) db.max_history := by
      rw [hh1, List.length_drop]
      simp only [List.length_append, List.length_cons, List.length_nil]
      omega
    have hle1 : (add_to_history db e.1 e.2).2.history.length ≤
        db.max_history := by
      rw [hlen1]; omega
    obtain ⟨ihh, ihwf, ihcap, ihlen⟩ :=
      addAll_spec rest (add_to_history db e.1 e.2).2 hwf1
        (by rw [hcap1]; exact hle1)
    have haddall : addAll db (e :: rest) =
        addAll (add_to_history db e.1 e.2).2 rest := rfl
    have hcreated : createdEntries db (e :: rest) =
        newEntry db e.1 e.2 ::
          createdEntries (add_to_history db e.1 e.2).2 rest := rfl
    have hdropchar : (addAll db (e :: rest)).history =
        (db.history ++ createdEntries db (e :: rest)).drop
          (db.history.length + (e :: rest).length - db.max_history) := by
      rw [haddall, ihh, hcap1, hcreated]
      rw [show db.history ++ newEntry db e.1 e.2 ::
            createdEntries (add_to_history db e.1 e.2).2 rest =
          (db.history ++ [newEntry db e.1 e.2]) ++
            createdEntries (add_to_history db e.1 e.2).2 rest from by simp]
      rw [hh1]
      rw [← List.drop_append_of_le_length (by
        simp only [List.length_append, List.length_cons, List.length_nil]
        omega)]
      rw [List.drop_drop]
      congr 1
      simp only [List.length_drop, List.length_append, List.length_cons,
        List.length_nil]
      omega
    refine ⟨?_, hdropchar, ?_, ?_⟩
    · rw [hdropchar, List.length_drop, List.length_append,
        createdEntries_length]
      simp only [List.length_cons] at hM ⊢
      omega
    · intro d hd hdnot f hf
      rw [hdropchar] at hdnot hf
      have hsplit := List.take_append_drop
        (db.history.length + (e :: rest).length - db.max_history)
        (db.history ++ createdEntries db (e :: rest))
      have hdtake : d ∈ (db.history ++ createdEntries db (e :: rest)).take
          (db.history.length + (e :: rest).length - db.max_history) := by
        rw [← hsplit] at hd
        rcases List.mem_append.mp hd with h | h
        · exact h
        · exact absurd h hdnot
      have hpw2 := hallpw
      rw [← hsplit] at hpw2
      exact (List.pairwise_append.mp hpw2).2.2 d hdtake f hf
    · intro k hk
      cases k with
      | zero => omega
      | succ k2 =>
        have htake : (e :: rest).take (k2 + 1) = e :: rest.take k2 := rfl
        have hstep : addAll db (e :: rest.take k2) =
            addAll (add_to_history db e.1 e.2).2 (rest.take k2) := rfl
        rw [htake, hstep]
        have := addAll_spec (rest.take k2) (add_to_history db e.1 e.2).2
          hwf1 (by rw [hcap1]; exact hle1)
        rw [this.2.2.2, hcap1]
        omega

/-- Concrete cap-2 store receiving three inserts. -/
def dbCap2 : DB := { emptyDB with max_history := 2 }

theorem clipboard_history_bound_witness :
    (addAll dbCap2 [(none, "a"), (none, "b"), (none, "c")]).history.length
      = 2 := by
  have h := clipboard_history_bound dbCap2
    [(none, "a"), (none, "b"), (none, "c")]
    ⟨List.Pairwise.nil, by intro e he; simp [dbCap2, emptyDB] at he⟩
    (by decide)
  exact h.1

/-! ## Claim C1: the dense-ordering invariant -/

/-- The list-maintenance operations the ordering invariant of the spec
quantifies over. -/
inductive Op where
  | createL (cat : Nat) (name : String) (specs : List ItemSpec)
  | reorder (item_id : Nat) (new_orden : Int)
  | deleteL (cat : Nat) (name : String)
deriving Repr

/-- State reached by one operation (a raised `create_list` error leaves the
state unchanged; `reorder_list_item` and `delete_list` return their flag
and the new state). -/
def applyOp (db : DB) : Op → DB
  | .createL cat name specs =>
    match create_list db cat name specs with
    | .ok r => r.2
    | .error _ => db
  | .reorder item_id new_orden => (reorder_list_item db item_id new_orden).2
  | .deleteL cat name => (delete_list db cat name).2

def applyOps (db : DB) : List Op → DB
  | [] => db
  | op :: rest => applyOps (applyOp db op) rest

/-- In-range reposition requests: when the target row exists, is a list
member and carries a named group, the requested position must lie in
`1..N` for `N` the current member count of its group.  Creations and
deletions are unrestricted. -/
def validOp (db : DB) : Op → Bool
  | .reorder item_id new_orden =>
    match db.items.find? (fun it => it.id == item_id) with
    | some it =>
      if it.is_list then
        match it.list_group with
        | some g =>
          decide (1 ≤ new_orden) &&
            decide (new_orden ≤
              ((groupItems db it.category_id g).length : Int))
        | none => true
      else true
    | none => true
  | _ => true

def validSeq (db : DB) : List Op → Bool
  | [] => true
  | op :: rest => validOp db op && validSeq (applyOp db op) rest

/-- Row ids are unique (they are an AUTOINCREMENT primary key) and below
the next id to be assigned. -/
def WF (db : DB) : Prop :=
  (db.items.map (fun it => it.id)).Nodup ∧
  ∀ it ∈ db.items, it.id < db.nextId

/-- The ordering invariant of the spec: for every category and list-group,
the multiset of `orden_lista` values of the `is_list = 1` members is
exactly `{1..N}`, `N` the member count. -/
def orderingOK (db : DB) : Prop :=
  ∀ cat g, (groupPos db cat g).Perm (posList (groupPos db cat g).length)

theorem posList_nodup (n : Nat) : (posList n).Nodup := by
  unfold posList
  refine List.Nodup.map ?_ (List.nodup_range n)
  intro a b h
  simp only at h
  omega

theorem mem_posList (p : Int) (n : Nat) :
    p ∈ posList n ↔ 1 ≤ p ∧ p ≤ (n : Int) := by
  unfold posList
  rw [List.mem_map]
  constructor
  · rintro ⟨i, hi, hip⟩
    rw [List.mem_range] at hi
    omega
  · intro h
    refine ⟨(p - 1).toNat, ?_, ?_⟩
    · rw [List.mem_range]
      omega
    · omega

theorem perm_posList_of (L : List Int) (n : Nat) (hlen : L.length = n)
    (hnd : L.Nodup) (hmem : ∀ p ∈ L, 1 ≤ p ∧ p ≤ (n : Int)) :
    L.Perm (posList n) := by
  have hsub : L.toFinset ⊆ Finset.Icc (1 : Int) (n : Int) := by
    intro p hp
    rw [Finset.mem_Icc]
    exact hmem p (List.mem_toFinset.mp hp)
  have hcardIcc : (Finset.Icc (1 : Int) (n : Int)).card = n := by
    rw [Int.card_Icc]
    omega
  have hcardL : L.toFinset.card = n := by
    rw [List.toFinset_card_of_nodup hnd, hlen]
  have heq : L.toFinset = Finset.Icc (1 : Int) (n : Int) :=
    Finset.eq_of_subset_of_card_le hsub (by omega)
  rw [List.perm_ext_iff_of_nodup hnd (posList_nodup n)]
  intro a
  rw [mem_posList]
  constructor
  · intro ha
    have h2 : a ∈ L.toFinset := List.mem_toFinset.mpr ha
    rw [heq, Finset.mem_Icc] at h2
    exact h2
  · intro ha
    have h2 : a ∈ L.toFinset := by
      rw [heq, Finset.mem_Icc]
      exact ha
    exact List.mem_toFinset.mp h2

theorem filter_map_comm {α : Type} (f : α → α) (p : α → Bool)
    (h : ∀ a, p (f a) = p a) :
    ∀ l : List α, (l.map f).filter p = (l.filter p).map f := by
  intro l
  induction l with
  | nil => rfl
  | cons a t ih =>
    by_cases hp : p a = true
    · rw [List.map_cons, List.filter_cons_of_pos (by rw [h a]; exact hp),
        List.filter_cons_of_pos hp, List.map_cons, ih]
    · rw [List.map_cons,
        List.filter_cons_of_neg (by rw [h a]; simpa using hp),
        List.filter_cons_of_neg (by simpa using hp), ih]

theorem wf_id_inj (db : DB) (hwf : WF db) :
    ∀ a ∈ db.items, ∀ b ∈ db.items, a.id = b.id → a = b := by
  intro a ha b hb h
  exact List.inj_on_of_nodup_map hwf.1 ha hb h

theorem shiftFn_id (m : Item) (n : Int) (it : Item) :
    (shiftFn m n it).id = it.id := by
  unfold shiftFn
  split_ifs <;> rfl

theorem shiftFn_category (m : Item) (n : Int) (it : Item) :
    (shiftFn m n it).category_id = it.category_id := by
  unfold shiftFn
  split_ifs <;> rfl

theorem shiftFn_group (m : Item) (n : Int) (it : Item) :
    (shiftFn m n it).list_group = it.list_group := by
  unfold shiftFn
  split_ifs <;> rfl

theorem shiftFn_is_list (m : Item) (n : Int) (it : Item) :
    (shiftFn m n it).is_list = it.is_list := by
  unfold shiftFn
  split_ifs <;> rfl

theorem pointFn_id (i : Nat) (n : Int) (it : Item) :
    (pointFn i n it).id = it.id := by
  unfold pointFn
  split_ifs <;> rfl

theorem pointFn_category (i : Nat) (n : Int) (it : Item) :
    (pointFn i n it).category_id = it.category_id := by
  unfold pointFn
  split_ifs <;> rfl

theorem pointFn_group (i : Nat) (n : Int) (it : Item) :
    (pointFn i n it).list_group = it.list_group := by
  unfold pointFn
  split_ifs <;> rfl

theorem pointFn_is_list (i : Nat) (n : Int) (it : Item) :
    (pointFn i n it).is_list = it.is_list := by
  unfold pointFn
  split_ifs <;> rfl

theorem shiftFn_self (m : Item) (n : Int) : shiftFn m n m = m := by
  unfold shiftFn
  split_ifs with h1 h2 h3
  · exfalso
    simp only [Bool.and_eq_true, decide_eq_true_eq] at h2
    omega
  · rfl
  · exfalso
    simp only [Bool.and_eq_true, decide_eq_true_eq] at h3
    omega
  · rfl

theorem wf_empty : WF emptyDB := by
  constructor
  · simp [emptyDB]
  · intro it hit
    simp [emptyDB] at hit

theorem orderingOK_empty : orderingOK emptyDB := by
  intro cat g
  simp [groupPos, groupItems, emptyDB, posList]

/-- Counterexample to claim C1 as stated: the claim quantifies over any
sequence of create, reposition and delete operations, but
`reorder_list_item` never validates the requested position.  From an empty
store, creating the single-item list L (position set \x7b1\x7d) and then
repositioning that item to position 2 yields the position set \x7b2\x7d,
which is not \x7b1..1\x7d: the invariant is violated. -/
theorem ordering_invariant_cex :
    ¬ orderingOK (applyOps emptyDB
      [Op.createL 1 "L" [{}], Op.reorder 1 2]) := by
  intro h
  have h1 := h 1 "L"
  have hgp : groupPos (applyOps emptyDB
      [Op.createL 1 "L" [{}], Op.reorder 1 2]) 1 "L" = [2] := by decide
  rw [hgp] at h1
  have h2 := h1.mem_iff.mp (show (2 : Int) ∈ [(2 : Int)] by simp)
  rw [mem_posList] at h2
  simp at h2

theorem sqlEqOpt_some_iff (x : Option String) (s : String) :
    sqlEqOpt x (some s) = true ↔ x = some s := by
  cases x <;> simp [sqlEqOpt]

theorem inGroup_eq_true_iff (c : Nat) (g : String) (a : Item) :
    inGroup c g a = true ↔
      a.category_id = c ∧ a.list_group = some g ∧ a.is_list = true := by
  constructor
  · intro h
    simp only [inGroup, Bool.and_eq_true, beq_iff_eq] at h
    obtain ⟨⟨h1, h2⟩, h3⟩ := h
    exact ⟨h1, (sqlEqOpt_some_iff _ _).mp h2, h3⟩
  · rintro ⟨h1, h2, h3⟩
    simp [inGroup, h1, h2, h3, sqlEqOpt]

theorem inGroup_disjoint (c1 c2 : Nat) (g1 g2 : String) (a : Item)
    (hne : ¬ (c2 = c1 ∧ g2 = g1)) (h2 : inGroup c2 g2 a = true) :
    inGroup c1 g1 a = false := by
  obtain ⟨ha1, ha2, ha3⟩ := (inGroup_eq_true_iff c2 g2 a).mp h2
  by_cases hq : inGroup c1 g1 a = true
  · obtain ⟨hb1, hb2, hb3⟩ := (inGroup_eq_true_iff c1 g1 a).mp hq
    exfalso
    apply hne
    refine ⟨by omega, ?_⟩
    rw [ha2] at hb2
    exact Option.some_inj.mp hb2
  · simpa using hq

/-- Consecutive positions `o, o+1, ..., o+n-1`. -/
def ordenSeq : Int → Nat → List Int
  | _, 0 => []
  | o, n + 1 => o :: ordenSeq (o + 1) n

theorem ordenSeq_length : ∀ (n : Nat) (o : Int), (ordenSeq o n).length = n := by
  intro n
  induction n with
  | zero => intro o; rfl
  | succ k ih => intro o; simp [ordenSeq, ih]

theorem ordenSeq_mem : ∀ (n : Nat) (o : Int) (x : Int),
    x ∈ ordenSeq o n ↔ o ≤ x ∧ x < o + n := by
  intro n
  induction n with
  | zero => intro o x; simp [ordenSeq]
  | succ k ih =>
    intro o x
    simp only [ordenSeq, List.mem_cons, ih]
    omega

theorem ordenSeq_nodup : ∀ (n : Nat) (o : Int), (ordenSeq o n).Nodup := by
  intro n
  induction n with
  | zero => intro o; simp [ordenSeq]
  | succ k ih =>
    intro o
    simp only [ordenSeq, List.nodup_cons]
    refine ⟨?_, ih (o + 1)⟩
    intro hmem
    rw [ordenSeq_mem] at hmem
    omega

theorem mkRows_id_mem (cat : Nat) (name : String) :
    ∀ (specs : List ItemSpec) (iid : Nat) (orden : Int) (x : Nat),
    x ∈ (mkRows cat name iid orden specs).map (fun r => r.id) →
    iid ≤ x ∧ x < iid + specs.length := by
  intro specs
  induction specs with
  | nil => intro iid orden x hx; simp [mkRows] at hx
  | cons s rest ih =>
    intro iid orden x hx
    simp only [mkRows, List.map_cons, List.mem_cons] at hx
    rcases hx with h | h
    · have hh : (mkRow cat name iid orden s).id = iid := rfl
      rw [hh] at h
      subst h
      simp only [List.length_cons]
      omega
    · have := ih (iid + 1) (orden + 1) x h
      simp only [List.length_cons]
      omega

theorem mkRows_id_nodup (cat : Nat) (name : String) :
    ∀ (specs : List ItemSpec) (iid : Nat) (orden : Int),
    ((mkRows cat name iid orden specs).map (fun r => r.id)).Nodup := by
  intro specs
  induction specs with
  | nil => intro iid orden; simp [mkRows]
  | cons s rest ih =>
    intro iid orden
    simp only [mkRows, List.map_cons, List.nodup_cons]
    refine ⟨?_, ih (iid + 1) (orden + 1)⟩
    intro hmem
    have hh : (mkRow cat name iid orden s).id = iid := rfl
    rw [hh] at hmem
    have := mkRows_id_mem cat name rest (iid + 1) (orden + 1) iid hmem
    omega

theorem mkRows_orden_eq (cat : Nat) (name : String) :
    ∀ (specs : List ItemSpec) (iid : Nat) (orden : Int),
    (mkRows cat name iid orden specs).map (fun r => r.orden_lista) =
      ordenSeq orden specs.length := by
  intro specs
  induction specs with
  | nil => intro iid orden; rfl
  | cons s rest ih =>
    intro iid orden
    simp only [mkRows, List.map_cons, List.length_cons, ordenSeq,
      ih (iid + 1) (orden + 1)]
    rfl

theorem posList_length (n : Nat) : (posList n).length = n := by
  unfold posList
  rw [List.length_map, List.length_range]

theorem ordenSeq_perm_posList (n : Nat) : (ordenSeq 1 n).Perm (posList n) := by
  apply perm_posList_of _ n (ordenSeq_length n 1) (ordenSeq_nodup n 1)
  intro p hp
  rw [ordenSeq_mem] at hp
  omega

theorem create_list_ok_items (db : DB) (cat : Nat) (name : String)
    (specs : List ItemSpec) (ids : List Nat) (db1 : DB)
    (h : create_list db cat name specs = Except.ok (ids, db1)) :
    specs.isEmpty = false ∧ is_list_name_unique db cat name none = true ∧
    db1.items = db.items ++ mkRows cat name db.nextId 1 specs ∧
    db1.nextId = db.nextId + specs.length := by
  simp only [create_list] at h
  by_cases hemp : specs.isEmpty = true
  · simp [hemp] at h
  · by_cases huniq : is_list_name_unique db cat name none = true
    · simp only [hemp, Bool.false_eq_true, if_false, huniq, Bool.not_true,
        if_neg] at h
      have hdb1 : db1 = (create_list_go cat name db specs 1).2 := by
        injection h with h2
        rw [h2]
      rw [hdb1, create_list_go_spec]
      exact ⟨by simpa using hemp, huniq, rfl, rfl⟩
    · simp only [hemp, Bool.false_eq_true, if_false] at h
      rw [if_pos (by
        simp only [Bool.not_eq_true] at huniq
        simp [huniq])] at h
      exact absurd h (by simp)

theorem create_preserves (db : DB) (cat : Nat) (name : String)
    (specs : List ItemSpec) (hwf : WF db) (hok : orderingOK db) :
    WF (applyOp db (Op.createL cat name specs)) ∧
    orderingOK (applyOp db (Op.createL cat name specs)) := by
  cases hres : create_list db cat name specs with
  | error m =>
    simp only [applyOp, hres]
    exact ⟨hwf, hok⟩
  | ok r =>
    obtain ⟨ids, db1⟩ := r
    obtain ⟨hemp, huniq, hitems, hnext⟩ :=
      create_list_ok_items db cat name specs ids db1 hres
    simp only [applyOp, hres]
    constructor
    · constructor
      · rw [hitems, List.map_append, List.nodup_append]
        refine ⟨hwf.1, ?_, ?_⟩
        · exact mkRows_id_nodup cat name specs db.nextId 1
        · intro x hx hy
          obtain ⟨a, ha, rfl⟩ := List.mem_map.mp hx
          have hxlt := hwf.2 a ha
          have := mkRows_id_mem cat name specs db.nextId 1 a.id hy
          omega
      · intro it hit
        rw [hnext]
        rw [hitems] at hit
        rcases List.mem_append.mp hit with h | h
        · have := hwf.2 it h
          omega
        · have hidmem : it.id ∈
              (mkRows cat name db.nextId 1 specs).map (fun r => r.id) :=
            List.mem_map_of_mem _ h
          have := mkRows_id_mem cat name specs db.nextId 1 it.id hidmem
          omega
    · intro c2 g2
      by_cases hc : c2 = cat ∧ g2 = name
      · obtain ⟨rfl, rfl⟩ := hc
        have hlen0 : (db.items.filter (inGroup c2 g2)).length = 0 := by
          simpa [is_list_name_unique] using huniq
        have hzero : db.items.filter (inGroup c2 g2) = [] :=
          List.length_eq_zero.mp hlen0
        have hfull : (mkRows c2 g2 db.nextId 1 specs).filter (inGroup c2 g2)
            = mkRows c2 g2 db.nextId 1 specs :=
          List.filter_eq_self.mpr
            (fun r hr => mkRows_inGroup c2 g2 specs db.nextId 1 r hr)
        simp only [groupPos, groupItems, hitems, List.filter_append, hzero,
          hfull, List.nil_append]
        rw [mkRows_orden_eq, ordenSeq_length]
        exact ordenSeq_perm_posList specs.length
      · have hnone : (mkRows cat name db.nextId 1 specs).filter
            (inGroup c2 g2) = [] := by
          apply List.filter_eq_nil_iff.mpr
          intro r hr
          obtain ⟨hcat, hgrp, hlist, -⟩ :=
            mkRows_fields cat name specs db.nextId 1 r hr
          have hf := inGroup_disjoint c2 cat g2 name r
            (fun hboth => hc ⟨hboth.1.symm, hboth.2.symm⟩)
            ((inGroup_eq_true_iff cat name r).mpr ⟨hcat, hgrp, hlist⟩)
          simp [hf]
        simp only [groupPos, groupItems, hitems, List.filter_append, hnone,
          List.append_nil]
        exact hok c2 g2

theorem filter_filter_comb {α : Type} (p q : α → Bool) :
    ∀ l : List α, (l.filter p).filter q = l.filter (fun a => p a && q a) := by
  intro l
  induction l with
  | nil => rfl
  | cons a t ih =>
    by_cases hp : p a = true
    · by_cases hq : q a = true
      · rw [List.filter_cons_of_pos hp, List.filter_cons_of_pos hq,
          List.filter_cons_of_pos (by simp [hp, hq]), ih]
      · rw [List.filter_cons_of_pos hp, List.filter_cons_of_neg hq,
          List.filter_cons_of_neg (by simp [hp]; simpa using hq), ih]
    · rw [List.filter_cons_of_neg hp,
        List.filter_cons_of_neg (by simp [hp]), ih]

theorem delete_preserves (db : DB) (cat : Nat) (name : String)
    (hwf : WF db) (hok : orderingOK db) :
    WF (applyOp db (Op.deleteL cat name)) ∧
    orderingOK (applyOp db (Op.deleteL cat name)) := by
  have hitems : (applyOp db (Op.deleteL cat name)).items =
      db.items.filter (fun it => !(inGroup cat name it)) := rfl
  have hnext : (applyOp db (Op.deleteL cat name)).nextId = db.nextId := rfl
  constructor
  · constructor
    · rw [hitems]
      have hsub : List.Sublist
          ((db.items.filter (fun it => !(inGroup cat name it))).map
            (fun it => it.id))
          (db.items.map (fun it => it.id)) :=
        List.Sublist.map _ (List.filter_sublist _)
      exact List.Nodup.sublist hsub hwf.1
    · intro it hit
      rw [hnext]
      rw [hitems] at hit
      exact hwf.2 it (List.mem_of_mem_filter hit)
  · intro c2 g2
    by_cases hc : c2 = cat ∧ g2 = name
    · obtain ⟨rfl, rfl⟩ := hc
      have hz : groupPos (applyOp db (Op.deleteL c2 g2)) c2 g2 = [] := by
        simp only [groupPos, groupItems, hitems]
        rw [filter_filter_comb]
        rw [List.filter_eq_nil_iff.mpr ?_]
        · rfl
        · intro a _
          cases h : inGroup c2 g2 a <;> simp [h]
      rw [hz]
      simp [posList]
    · have he : groupPos (applyOp db (Op.deleteL cat name)) c2 g2 =
          groupPos db c2 g2 := by
        simp only [groupPos, groupItems, hitems]
        rw [filter_filter_comb]
        have hcong : db.items.filter
            (fun a => !(inGroup cat name a) && inGroup c2 g2 a) =
            db.items.filter (inGroup c2 g2) := by
          apply List.filter_congr
          intro a _
          by_cases h2 : inGroup c2 g2 a = true
          · have hf := inGroup_disjoint cat c2 name g2 a hc h2
            simp [hf, h2]
          · have h3 : inGroup c2 g2 a = false := by simpa using h2
            simp [h3]
        rw [hcong]
      rw [he]
      exact hok c2 g2

/-- Arithmetic effect of the ranged shift on one position of the moved
group. -/
def shiftVal (old new p : Int) : Int :=
  if new < old then (if new ≤ p ∧ p < old then p + 1 else p)
  else (if old < p ∧ p ≤ new then p - 1 else p)

theorem shiftVal_bounds (old new p N : Int)
    (h1 : 1 ≤ old) (h2 : old ≤ N) (h3 : 1 ≤ new) (h4 : new ≤ N)
    (h5 : 1 ≤ p) (h6 : p ≤ N) :
    1 ≤ shiftVal old new p ∧ shiftVal old new p ≤ N := by
  unfold shiftVal
  split_ifs <;> omega

theorem shiftVal_ne_new (old new p : Int) (hne : old ≠ new) (hp : p ≠ old) :
    shiftVal old new p ≠ new := by
  unfold shiftVal
  split_ifs <;> omega

theorem shiftVal_inj (old new p q : Int) (hp : p ≠ old) (hq : q ≠ old)
    (h : shiftVal old new p = shiftVal old new q) : p = q := by
  unfold shiftVal at h
  split_ifs at h <;> omega

theorem shiftFn_orden_group (m : Item) (n : Int) (r : Item)
    (hc : r.category_id = m.category_id)
    (hg : sqlEqOpt r.list_group m.list_group = true) :
    (shiftFn m n r).orden_lista = shiftVal m.orden_lista n r.orden_lista := by
  unfold shiftFn shiftVal
  have hcb : (r.category_id == m.category_id) = true := by simp [hc]
  rw [hcb, hg]
  split_ifs <;> simp_all

theorem reorder_preserves (db : DB) (item_id : Nat) (new_orden : Int)
    (hwf : WF db) (hok : orderingOK db)
    (hv : validOp db (Op.reorder item_id new_orden) = true) :
    WF (applyOp db (Op.reorder item_id new_orden)) ∧
    orderingOK (applyOp db (Op.reorder item_id new_orden)) := by
  cases hfind : db.items.find? (fun it => it.id == item_id) with
  | none =>
    simp only [applyOp, reorder_list_item, hfind]
    exact ⟨hwf, hok⟩
  | some m =>
    by_cases hlist : m.is_list = true
    case neg =>
      have hl2 : m.is_list = false := by simpa using hlist
      simp only [applyOp, reorder_list_item, hfind, hl2, Bool.not_false,
        if_true]
      exact ⟨hwf, hok⟩
    case pos =>
    by_cases heq : (m.orden_lista == new_orden) = true
    case pos =>
      simp only [applyOp, reorder_list_item, hfind, hlist, Bool.not_true,
        Bool.false_eq_true, if_false, heq, if_true]
      exact ⟨hwf, hok⟩
    case neg =>
    have heqf : (m.orden_lista == new_orden) = false := by simpa using heq
    have hne : ¬ m.orden_lista = new_orden := by simpa using heqf
    have hitems : (applyOp db (Op.reorder item_id new_orden)).items =
        (db.items.map (shiftFn m new_orden)).map
          (pointFn item_id new_orden) := by
      simp only [applyOp, reorder_list_item, hfind, hlist, Bool.not_true,
        Bool.false_eq_true, if_false, heqf]
    have hnext : (applyOp db (Op.reorder item_id new_orden)).nextId =
        db.nextId := by
      simp only [applyOp, reorder_list_item, hfind, hlist, Bool.not_true,
        Bool.false_eq_true, if_false, heqf]
    have hm_mem : m ∈ db.items := List.mem_of_find?_eq_some hfind
    have hm_id : m.id = item_id := by
      have := List.find?_some hfind
      simpa using this
    have hgroup : ∀ c2 g2,
        groupItems (applyOp db (Op.reorder item_id new_orden)) c2 g2 =
        (groupItems db c2 g2).map (fun it =>
          pointFn item_id new_orden (shiftFn m new_orden it)) := by
      intro c2 g2
      simp only [groupItems, hitems, List.map_map]
      rw [filter_map_comm _ _ (fun a => by
        simp only [Function.comp_apply, inGroup]
        rw [pointFn_category, shiftFn_category, pointFn_group,
          shiftFn_group, pointFn_is_list, shiftFn_is_list])]
      rfl
    refine ⟨⟨?_, ?_⟩, ?_⟩
    · -- id Nodup is untouched
      have hids : ((applyOp db (Op.reorder item_id new_orden)).items.map
          (fun it => it.id)) = db.items.map (fun it => it.id) := by
        rw [hitems, List.map_map, List.map_map]
        apply List.map_congr_left
        intro a _
        simp only [Function.comp_apply]
        rw [pointFn_id, shiftFn_id]
      rw [hids]
      exact hwf.1
    · intro it hit
      rw [hnext]
      rw [hitems] at hit
      obtain ⟨b, hb, rfl⟩ := List.mem_map.mp hit
      obtain ⟨a, ha, rfl⟩ := List.mem_map.mp hb
      have hida : (pointFn item_id new_orden (shiftFn m new_orden a)).id
          = a.id := by rw [pointFn_id, shiftFn_id]
      rw [hida]
      exact hwf.2 a ha
    · intro c2 g2
      have hgp : groupPos (applyOp db (Op.reorder item_id new_orden)) c2 g2 =
          ((groupItems db c2 g2).map (fun it =>
            pointFn item_id new_orden (shiftFn m new_orden it))).map
              (fun it => it.orden_lista) := by
        simp only [groupPos, hgroup c2 g2]
      cases hmg : m.list_group with
      | none =>
        have hid : ∀ r ∈ groupItems db c2 g2,
            pointFn item_id new_orden (shiftFn m new_orden r) = r := by
          intro r hr
          obtain ⟨hr1, hr2, hr3⟩ :=
            (inGroup_eq_true_iff c2 g2 r).mp (List.mem_filter.mp hr).2
          have hs : shiftFn m new_orden r = r := by
            unfold shiftFn
            have hnul : sqlEqOpt r.list_group m.list_group = false := by
              rw [hmg]
              cases r.list_group <;> rfl
            simp [hnul]
          rw [hs]
          unfold pointFn
          rw [if_neg ?_]
          intro hcontra
          have hrid : r.id = item_id := by simpa using hcontra
          have hrm : r = m := wf_id_inj db hwf r (List.mem_filter.mp hr).1
            m hm_mem (by rw [hrid, hm_id])
          rw [hrm, hmg] at hr2
          exact Option.noConfusion hr2
        have hfix : (groupItems db c2 g2).map (fun it =>
            pointFn item_id new_orden (shiftFn m new_orden it)) =
            groupItems db c2 g2 :=
          (List.map_congr_left hid).trans (List.map_id _)
        rw [hgp, hfix]
        exact hok c2 g2
      | some g =>
        by_cases hcg : c2 = m.category_id ∧ g2 = g
        case neg =>
          have hid : ∀ r ∈ groupItems db c2 g2,
              pointFn item_id new_orden (shiftFn m new_orden r) = r := by
            intro r hr
            obtain ⟨hr1, hr2, hr3⟩ :=
              (inGroup_eq_true_iff c2 g2 r).mp (List.mem_filter.mp hr).2
            have hs : shiftFn m new_orden r = r := by
              have hpre : (r.category_id == m.category_id &&
                  sqlEqOpt r.list_group m.list_group) = false := by
                rw [hr2, hmg]
                by_cases h1 : c2 = m.category_id
                · have h2 : ¬ g2 = g := fun h => hcg ⟨h1, h⟩
                  simp [sqlEqOpt, hr1, h1, h2]
                · simp [hr1, h1]
              unfold shiftFn
              simp [hpre]
            rw [hs]
            unfold pointFn
            rw [if_neg ?_]
            intro hcontra
            have hrid : r.id = item_id := by simpa using hcontra
            have hrm : r = m := wf_id_inj db hwf r (List.mem_filter.mp hr).1
              m hm_mem (by rw [hrid, hm_id])
            apply hcg
            constructor
            · rw [← hr1, hrm]
            · rw [hrm, hmg] at hr2
              exact (Option.some_inj.mp hr2).symm
          have hfix : (groupItems db c2 g2).map (fun it =>
              pointFn item_id new_orden (shiftFn m new_orden it)) =
              groupItems db c2 g2 :=
            (List.map_congr_left hid).trans (List.map_id _)
          rw [hgp, hfix]
          exact hok c2 g2
        case pos =>
          obtain ⟨rfl, rfl⟩ := hcg
          have hvv : 1 ≤ new_orden ∧ new_orden ≤
              ((groupItems db m.category_id g2).length : Int) := by
            simp only [validOp, hfind, hlist, if_true, hmg,
              Bool.and_eq_true, decide_eq_true_eq] at hv
            exact hv
          have hperm := hok m.category_id g2
          have hlenP : (groupPos db m.category_id g2).length =
              (groupItems db m.category_id g2).length := by
            simp [groupPos]
          have hPnd : (groupPos db m.category_id g2).Nodup :=
            hperm.nodup_iff.mpr (posList_nodup _)
          have hbnd : ∀ p ∈ groupPos db m.category_id g2,
              1 ≤ p ∧ p ≤ ((groupItems db m.category_id g2).length : Int) := by
            intro p hp
            have h2 := hperm.mem_iff.mp hp
            rw [mem_posList, hlenP] at h2
            exact h2
          have hm_group : inGroup m.category_id g2 m = true :=
            (inGroup_eq_true_iff _ _ _).mpr ⟨rfl, hmg, hlist⟩
          have hm_in : m ∈ groupItems db m.category_id g2 :=
            List.mem_filter.mpr ⟨hm_mem, hm_group⟩
          have hold_mem : m.orden_lista ∈ groupPos db m.category_id g2 :=
            List.mem_map_of_mem _ hm_in
          have hold_bnd := hbnd _ hold_mem
          have hordinj : ∀ x ∈ groupItems db m.category_id g2,
              ∀ y ∈ groupItems db m.category_id g2,
              x.orden_lista = y.orden_lista → x = y := by
            intro x hx y hy hxy
            exact List.inj_on_of_nodup_map hPnd hx hy hxy
          have hid_to_m : ∀ r ∈ groupItems db m.category_id g2,
              (r.id == item_id) = true → r = m := by
            intro r hr h
            exact wf_id_inj db hwf r (List.mem_filter.mp hr).1 m hm_mem
              (by rw [(by simpa using h : r.id = item_id), hm_id])
          have hne_old : ∀ r ∈ groupItems db m.category_id g2,
              ¬ (r.id == item_id) = true →
              r.orden_lista ≠ m.orden_lista := by
            intro r hr h hcontra
            exact h (by
              rw [hordinj r hr m hm_in hcontra]
              simpa using hm_id)
          have hFval : ∀ r ∈ groupItems db m.category_id g2,
              (pointFn item_id new_orden (shiftFn m new_orden r)).orden_lista
                = if (r.id == item_id) = true then new_orden
                  else shiftVal m.orden_lista new_orden r.orden_lista := by
            intro r hr
            obtain ⟨hr1, hr2, hr3⟩ :=
              (inGroup_eq_true_iff _ _ _).mp (List.mem_filter.mp hr).2
            by_cases hid2 : (r.id == item_id) = true
            · rw [if_pos hid2]
              unfold pointFn
              rw [if_pos (by rw [shiftFn_id]; exact hid2)]
            · rw [if_neg hid2]
              unfold pointFn
              rw [if_neg (by rw [shiftFn_id]; exact hid2)]
              exact shiftFn_orden_group m new_orden r hr1
                (by rw [hr2, hmg]; simp [sqlEqOpt])
          rw [hgp, List.map_map]
          have hlen2 : ((groupItems db m.category_id g2).map
              ((fun it => it.orden_lista) ∘ (fun it =>
                pointFn item_id new_orden (shiftFn m new_orden it)))).length
              = (groupItems db m.category_id g2).length := by
            rw [List.length_map]
          rw [hlen2]
          apply perm_posList_of _ _ hlen2
          · -- no duplicate positions afterwards
            apply List.Nodup.map_on ?_ (hPnd.of_map)
            intro x hx y hy hxy
            simp only [Function.comp_apply] at hxy
            rw [hFval x hx, hFval y hy] at hxy
            by_cases hxid : (x.id == item_id) = true
            · by_cases hyid : (y.id == item_id) = true
              · rw [hid_to_m x hx hxid, hid_to_m y hy hyid]
              · rw [if_pos hxid, if_neg hyid] at hxy
                exact absurd hxy.symm
                  (shiftVal_ne_new _ _ _ (fun h => hne h)
                    (hne_old y hy hyid))
            · by_cases hyid : (y.id == item_id) = true
              · rw [if_neg hxid, if_pos hyid] at hxy
                exact absurd hxy
                  (shiftVal_ne_new _ _ _ (fun h => hne h)
                    (hne_old x hx hxid))
              · rw [if_neg hxid, if_neg hyid] at hxy
                exact hordinj x hx y hy
                  (shiftVal_inj _ _ _ _ (hne_old x hx hxid)
                    (hne_old y hy hyid) hxy)
          · -- positions stay within 1..N
            intro p hp
            obtain ⟨r, hr, hrp⟩ := List.mem_map.mp hp
            simp only [Function.comp_apply] at hrp
            rw [hFval r hr] at hrp
            by_cases hid2 : (r.id == item_id) = true
            · rw [if_pos hid2] at hrp
              rw [← hrp]
              exact ⟨hvv.1, hvv.2⟩
            · rw [if_neg hid2] at hrp
              rw [← hrp]
              have hrb := hbnd r.orden_lista (List.mem_map_of_mem _ hr)
              exact shiftVal_bounds m.orden_lista new_orden r.orden_lista _
                hold_bnd.1 hold_bnd.2 hvv.1 hvv.2 hrb.1 hrb.2

theorem step_preserves (db : DB) (op : Op) (hwf : WF db)
    (hok : orderingOK db) (hv : validOp db op = true) :
    WF (applyOp db op) ∧ orderingOK (applyOp db op) := by
  cases op with
  | createL cat name specs => exact create_preserves db cat name specs hwf hok
  | reorder item_id new_orden =>
    exact reorder_preserves db item_id new_orden hwf hok hv
  | deleteL cat name => exact delete_preserves db cat name hwf hok

/-- Claim C1 (amended): starting from a well-formed store satisfying the
ordering invariant (in particular the empty store), after any sequence of
`create_list`, `reorder_list_item` and `delete_list` operations in which
every reposition of a grouped list item requests a position between 1 and
the current member count of that group, the `orden_lista` values of every
category and list-group with `is_list = 1` are exactly a permutation of
`1..N`, `N` the member count — no gaps and no duplicates. -/
theorem list_ordering_invariant (db : DB) (ops : List Op) (hwf : WF db)
    (hok : orderingOK db) (hv : validSeq db ops = true) :
    orderingOK (applyOps db ops) := by
  induction ops generalizing db with
  | nil => exact hok
  | cons op rest ih =>
    simp only [validSeq, Bool.and_eq_true] at hv
    obtain ⟨h1, h2⟩ := step_preserves db op hwf hok hv.1
    exact ih (applyOp db op) h1 h2 hv.2

theorem list_ordering_invariant_witness :
    (groupPos (applyOps emptyDB
        [Op.createL 1 "L" [{}, {}], Op.reorder 2 1]) 1 "L").Perm
      (posList (groupPos (applyOps emptyDB
        [Op.createL 1 "L" [{}, {}], Op.reorder 2 1]) 1 "L").length) :=
  list_ordering_invariant emptyDB [Op.createL 1 "L" [{}, {}], Op.reorder 2 1]
    wf_empty orderingOK_empty (by decide) 1 "L"

end WidgetSidebar
